import Mathlib

/-!
# Verification of the `cavalier_contours` polyline core

Shallow embedding of `src/cavalier_contours/src/polyline.rs` (the polyline
data model, segment traversal, direction inversion, signed area, closest
point, winding number, spatial-index construction and arc linearization).

The numeric type `T : Real` (instantiated at `f64` in the crate) is embedded
as `ℚ`; operations on it that live outside `src/` (square roots, inverse
trigonometry, numeric casts) are either modelled from the spec or passed in
as explicit function parameters, as noted on each definition.
-/

namespace CavalierContours

/-- Embedding of `Vector2<T>`: a 2D point/vector with rational coordinates. -/
structure Vec2 where
  x : ℚ
  y : ℚ
deriving DecidableEq, Repr

instance : Inhabited Vec2 := ⟨⟨0, 0⟩⟩

/-- Vector subtraction, used by the source as `point - cp` etc. -/
def Vec2.sub (a b : Vec2) : Vec2 := ⟨a.x - b.x, a.y - b.y⟩

/-- Squared Euclidean length of a vector (`Vector2::length_squared`). -/
def Vec2.lengthSq (v : Vec2) : ℚ := v.x * v.x + v.y * v.y

/-- Embedding of `dist_squared(a, b)` from the external core math:
squared Euclidean distance between two points. -/
def distSq (a b : Vec2) : ℚ := (a.sub b).lengthSq

/-- Embedding of `PlineVertex<T>`: x/y position plus the bulge value that
encodes the segment outgoing from this vertex. -/
structure Vertex where
  x : ℚ
  y : ℚ
  bulge : ℚ
deriving DecidableEq, Repr

instance : Inhabited Vertex := ⟨⟨0, 0, 0⟩⟩

/-- `PlineVertex::pos()`. -/
def Vertex.pos (v : Vertex) : Vec2 := ⟨v.x, v.y⟩

/-- Modelled from the spec: `PlineVertex::bulge_is_zero` (the vertex type is
external to `src/`); per spec §3, `bulge == 0` means the outgoing segment is
a straight line. -/
def Vertex.bulgeIsZero (v : Vertex) : Prop := v.bulge = 0

instance (v : Vertex) : Decidable v.bulgeIsZero := by
  unfold Vertex.bulgeIsZero; infer_instance

/-- Embedding of `Polyline<T>`: ordered vertex sequence plus closed flag. -/
structure Polyline where
  vertexData : List Vertex
  isClosed : Bool
deriving DecidableEq, Repr

/-- `Polyline::len()`. -/
def Polyline.len (p : Polyline) : ℕ := p.vertexData.length

/-! ## Segment index traversal (`PlineSegIndexIterator`) -/

/-- State of `PlineSegIndexIterator` (fields `pos`, `remaining`,
`is_closed_first_pass`). -/
structure SegIdxIter where
  pos : ℕ
  remaining : ℕ
  isClosedFirstPass : Bool
deriving DecidableEq, Repr

/-- `PlineSegIndexIterator::new(vertex_count, is_closed)`. -/
def SegIdxIter.init (vertexCount : ℕ) (isClosed : Bool) : SegIdxIter :=
  { pos := 1
    remaining :=
      if vertexCount < 2 then 0
      else if isClosed then vertexCount
      else vertexCount - 1
    isClosedFirstPass := isClosed }

/-- `PlineSegIndexIterator::next`: returns the produced index pair and the
successor state, or `none` when `remaining == 0`. -/
def SegIdxIter.next (s : SegIdxIter) : Option ((ℕ × ℕ) × SegIdxIter) :=
  if s.remaining = 0 then none
  else
    let r := s.remaining - 1
    if s.isClosedFirstPass then
      some ((r, 0), ⟨s.pos, r, false⟩)
    else
      some ((s.pos - 1, s.pos), ⟨s.pos + 1, r, s.isClosedFirstPass⟩)

/-- Materialize an iterator by repeatedly calling `next`, with explicit fuel
(each `next` that yields an item decreases `remaining` by one, so
`remaining` is sufficient fuel). -/
def SegIdxIter.collect : ℕ → SegIdxIter → List (ℕ × ℕ)
  | 0, _ => []
  | fuel + 1, s =>
    match s.next with
    | none => []
    | some (x, s') => x :: SegIdxIter.collect fuel s'

/-- Embedding of `Polyline::iter_segment_indexes()` materialized as a list:
run the iterator from its initial state. -/
def segIndexes (vertexCount : ℕ) (isClosed : Bool) : List (ℕ × ℕ) :=
  SegIdxIter.collect (SegIdxIter.init vertexCount isClosed).remaining
    (SegIdxIter.init vertexCount isClosed)

/-! ## Segment vertex-pair traversal (`PlineSegIterator`)

The Rust iterator yields, when the polyline is closed and has at least two
vertexes, the wraparound pair `(last, first)` on a first pass, and then the
adjacent pairs produced by `windows(2)`; `windows(2)` on a list is exactly
`zip` with the tail. -/

/-- Embedding of `Polyline::iter_segments()` materialized as a list: the
first-pass wraparound pair `(last, first)` when the polyline is closed and
has at least two vertexes, then the `windows(2)` pairs. -/
def segPairs (p : Polyline) : List (Vertex × Vertex) :=
  match p.vertexData with
  | [] => []
  | [_] => []
  | v :: w :: rest =>
    (if p.isClosed then [((v :: w :: rest).getLastD v, v)] else []) ++
      (v :: w :: rest).zip (w :: rest)

/-! ## `Polyline::invert_direction` -/

/-- Embedding of `Polyline::invert_direction`.

The source reverses the vertex list, then runs
`for i in 1..ln { self[i-1].bulge = -self[i].bulge }` (i.e. each vertex of
the reversed list except the last takes the negated bulge of its successor
in the reversed list — exactly `zipWith` over the reversed list and its
tail), and finally, when closed, overwrites the last bulge with the negated
bulge that was at index 0 right after the reversal. When `len < 2` the
method returns without changing anything. -/
def Polyline.invertDirection (p : Polyline) : Polyline :=
  if p.vertexData.length < 2 then p
  else
    let rev := p.vertexData.reverse
    let shifted :=
      List.zipWith (fun a b => Vertex.mk a.x a.y (-b.bulge)) rev rev.tail
    let lastV : Vertex :=
      match rev.getLast? with
      | none => default
      | some v =>
        if p.isClosed then
          ⟨v.x, v.y, -((rev.headD default).bulge)⟩
        else v
    ⟨shifted ++ [lastV], p.isClosed⟩

/-! ## Winding number -/

/-- Modelled from the spec: `is_left(p0, p1, point)` is an external
left-of-line predicate ("left/right-of-line predicates" are out-of-scope
collaborators); the point is strictly left of the directed line `p0 → p1`
when the cross product of `p1 - p0` with `point - p0` is positive. -/
def isLeft (p0 p1 pt : Vec2) : Prop :=
  0 < (p1.x - p0.x) * (pt.y - p0.y) - (p1.y - p0.y) * (pt.x - p0.x)

instance (p0 p1 pt : Vec2) : Decidable (isLeft p0 p1 pt) := by
  unfold isLeft; infer_instance

/-- Modelled from the spec: `is_left_or_equal(p0, p1, point)`, the
left-of-or-on variant of [isLeft]. -/
def isLeftOrEqual (p0 p1 pt : Vec2) : Prop :=
  0 ≤ (p1.x - p0.x) * (pt.y - p0.y) - (p1.y - p0.y) * (pt.x - p0.x)

instance (p0 p1 pt : Vec2) : Decidable (isLeftOrEqual p0 p1 pt) := by
  unfold isLeftOrEqual; infer_instance

/-- Modelled from the spec: `seg_arc_radius_and_center(v1, v2)` is an
external primitive ("exact arc radius/center from a chord+bulge"); per spec
§3/§4.5 the radius is `r = c*(b²+1)/(4*|b|)` for chord length `c`, and the
center lies on the chord's perpendicular bisector at distance `r - s` from
the chord midpoint (sagitta `s = |b|*c/2`), on the left of the directed
chord for a positive bulge (the arc bulges away from the center).
Eliminating the square root in `c`, the center offset along the left normal
`perp(v2-v1)/c` equals `((b²+1)/(4b) - b/2) * perp(v2-v1)` and the model
returns the *squared* radius `c²*((b²+1)/(4|b|))²` together with the center;
the winding code only ever compares squared distances against `r*r`. -/
def segArcRadiusSqAndCenter (v1 v2 : Vertex) : ℚ × Vec2 :=
  let b := v1.bulge
  let d2 := distSq v2.pos v1.pos
  let k := (b * b + 1) / (4 * |b|)
  let coeff := (b * b + 1) / (4 * b) - b / 2
  (d2 * k * k,
   ⟨(v1.x + v2.x) / 2 + coeff * (-(v2.y - v1.y)),
    (v1.y + v2.y) / 2 + coeff * (v2.x - v1.x)⟩)

/-- Embedding of `Polyline::process_line_winding`. -/
def processLineWinding (v1 v2 : Vertex) (pt : Vec2) : ℤ :=
  if v1.y ≤ pt.y then
    if pt.y < v2.y ∧ isLeft v1.pos v2.pos pt then 1 else 0
  else
    if v2.y ≤ pt.y ∧ ¬isLeft v1.pos v2.pos pt then -1 else 0

/-- Embedding of `Polyline::process_arc_winding`. The cases mirror the
source's nested branches exactly (upward/downward chord crossing × arc
orientation × side of chord × circle containment, plus the two
"chord not crossed but point possibly inside the arc sector" branches). -/
def processArcWinding (v1 v2 : Vertex) (pt : Vec2) : ℤ :=
  let isCCW := 0 < v1.bulge
  let pointIsLeft : Prop :=
    if isCCW then isLeft v1.pos v2.pos pt else isLeftOrEqual v1.pos v2.pos pt
  let rc := segArcRadiusSqAndCenter v1 v2
  -- `dist_to_arc_center_less_than_radius`: dist² < radius²
  let distLt : Prop := distSq rc.2 pt < rc.1
  if v1.y ≤ pt.y then
    if pt.y < v2.y then
      -- upward crossing of arc chord
      if isCCW then
        if pointIsLeft then 1 else if distLt then 1 else 0
      else
        if pointIsLeft then (if ¬distLt then 1 else 0) else 0
    else
      -- not crossing arc chord and chord is below
      if isCCW ∧ ¬pointIsLeft then
        if v2.x < pt.x ∧ pt.x < v1.x ∧ distLt then 1 else 0
      else if ¬isCCW ∧ pointIsLeft then
        if v1.x < pt.x ∧ pt.x < v2.x ∧ distLt then -1 else 0
      else 0
  else
    if v2.y ≤ pt.y then
      -- downward crossing of arc chord
      if isCCW then
        if ¬pointIsLeft then (if distLt then -1 else 0) else 0
      else
        if pointIsLeft then (if distLt then -1 else 0) else -1
    else
      -- not crossing arc chord and chord is above
      if isCCW ∧ ¬pointIsLeft then
        if v1.x < pt.x ∧ pt.x < v2.x ∧ distLt then 1 else 0
      else
        if v2.x < pt.x ∧ pt.x < v1.x ∧ distLt then -1 else 0

/-- Embedding of `Polyline::winding_number`: `0` when the polyline is open
or has fewer than two vertexes, otherwise the sum over all segments in
traversal order of the per-segment line/arc crossing contribution. -/
def Polyline.windingNumber (p : Polyline) (pt : Vec2) : ℤ :=
  if p.isClosed = false ∨ p.vertexData.length < 2 then 0
  else
    ((segPairs p).map (fun s =>
      if s.1.bulgeIsZero then processLineWinding s.1 s.2 pt
      else processArcWinding s.1 s.2 pt)).sum

/-! ## Signed area

The source's `angle_from_bulge` (external `base_math`) and the square root
inside `Vector2::length` (external vector math) are passed in as explicit
function parameters `af` and `sq`: `af b` is the arc sweep angle derived
from the absolute bulge `b`, and `sq` is applied to the squared chord length
to produce the chord length. -/

/-- The doubled contribution of one segment to the area accumulator: the
shoelace chord term always, plus the doubled signed circular-segment area
when the segment is an arc — exactly the body of the loop in
`Polyline::area`. -/
def segDoubleArea (af sq : ℚ → ℚ) (v1 v2 : Vertex) : ℚ :=
  (v1.x * v2.y - v1.y * v2.x) +
    (if v1.bulgeIsZero then 0
     else
       let b := |v1.bulge|
       let sweepAngle := af b
       let triangleBase := sq (distSq v2.pos v1.pos)
       let radius := triangleBase * ((b * b + 1) / (4 * b))
       let sagitta := b * triangleBase / 2
       let triangleHeight := radius - sagitta
       let doubleSectorArea := sweepAngle * radius * radius
       let doubleTriangleArea := triangleBase * triangleHeight
       let doubleArcArea := doubleSectorArea - doubleTriangleArea
       if v1.bulge < 0 then -doubleArcArea else doubleArcArea)

/-- Embedding of `Polyline::area`: `0` for open polylines, otherwise half
the doubled total accumulated over all segments in traversal order. -/
def Polyline.area (af sq : ℚ → ℚ) (p : Polyline) : ℚ :=
  if p.isClosed = false then 0
  else ((segPairs p).foldl (fun acc s => acc + segDoubleArea af sq s.1 s.2) 0) / 2

/-- Stated from the spec's words (§4.5, for the refinement claim): the
polygon shoelace sum over the straight chords connecting consecutive
vertices. -/
def shoelaceSum (p : Polyline) : ℚ :=
  ((segPairs p).map (fun s => s.1.x * s.2.y - s.1.y * s.2.x)).sum

/-- Stated from the spec's words (§4.5, for the refinement claim): the
doubled signed circular-segment area of one arc segment — doubled sector
area `θ*r²` minus doubled triangle area `c*(r-s)` with `θ` the sweep angle
from the absolute bulge, `r = c*(b²+1)/(4b)`, sagitta `s = b*c/2` (`b` the
absolute bulge), sign-flipped for a negative bulge. -/
def circularSegmentDoubleArea (af sq : ℚ → ℚ) (v1 v2 : Vertex) : ℚ :=
  let b := |v1.bulge|
  let theta := af b
  let c := sq (distSq v2.pos v1.pos)
  let r := c * ((b * b + 1) / (4 * b))
  let s := b * c / 2
  let signedDouble := theta * r * r - c * (r - s)
  if v1.bulge < 0 then -signedDouble else signedDouble

/-- Stated from the spec's words (§4.5, for the refinement claim): the area
is zero for open polylines and otherwise half of (shoelace sum over chords
plus, for every arc segment, the doubled signed circular-segment area). -/
def areaSpec (af sq : ℚ → ℚ) (p : Polyline) : ℚ :=
  if p.isClosed = false then 0
  else
    (shoelaceSum p +
      ((segPairs p).map (fun s =>
        if s.1.bulgeIsZero then 0
        else circularSegmentDoubleArea af sq s.1 s.2)).sum) / 2

/-! ## Closest point

`seg_closest_point` (the per-segment, segment-kind-aware closest point,
external core math) is passed in as a function parameter `scp`; the square
root at the end of the computation (`dist_squared.sqrt()` /
`Vector2::length`) is passed in as `sq`; `f64::MAX` (the sentinel the source
initializes `dist_squared` and `distance` with) is passed in as `M`. -/

/-- Embedding of `ClosestPointResult<T>`. -/
structure ClosestPointResult where
  segStartIndex : ℕ
  segPoint : Vec2
  distance : ℚ
deriving DecidableEq, Repr

/-- The loop body of `Polyline::closest_point`: update the accumulated
`(result, dist_squared)` state with segment `(i, j)` when its squared
distance is strictly smaller. -/
def closestPointStep (scp : Vertex → Vertex → Vec2 → Vec2) (p : Polyline)
    (pt : Vec2) (acc : ClosestPointResult × ℚ) (ij : ℕ × ℕ) :
    ClosestPointResult × ℚ :=
  let v1 := p.vertexData.getD ij.1 default
  let v2 := p.vertexData.getD ij.2 default
  let cp := scp v1 v2 pt
  let dist2 := (pt.sub cp).lengthSq
  if dist2 < acc.2 then (⟨ij.1, cp, acc.1.distance⟩, dist2) else acc

/-- The `closest_point` loop over all segment indexes, starting from the
source's initial state (`seg_start_index = 0`, `seg_point = self[0].pos()`,
`distance = dist_squared = Real::max_value()`, the latter embedded as the
parameter `M`). -/
def closestPointLoop (M : ℚ) (scp : Vertex → Vertex → Vec2 → Vec2)
    (p : Polyline) (pt : Vec2) (v0 : Vertex) : ClosestPointResult × ℚ :=
  (segIndexes p.vertexData.length p.isClosed).foldl
    (closestPointStep scp p pt) (⟨0, v0.pos, M⟩, M)

/-- Embedding of `Polyline::closest_point`: `none` for an empty polyline;
for a single vertex, that vertex with the Euclidean distance to it;
otherwise the fold over all segment indexes keeping the first strict
minimum of the squared distance, with the distance square-rooted at the
end. -/
def Polyline.closestPoint (M : ℚ) (sq : ℚ → ℚ)
    (scp : Vertex → Vertex → Vec2 → Vec2) (p : Polyline) (pt : Vec2) :
    Option ClosestPointResult :=
  match p.vertexData with
  | [] => none
  | v0 :: rest =>
    if rest = [] then
      some ⟨0, v0.pos, sq ((v0.pos.sub pt).lengthSq)⟩
    else
      some ⟨(closestPointLoop M scp p pt v0).1.segStartIndex,
        (closestPointLoop M scp p pt v0).1.segPoint,
        sq (closestPointLoop M scp p pt v0).2⟩

/-! ## Spatial index construction -/

/-- Embedding of `AABB<T>`. -/
structure AABB where
  minX : ℚ
  minY : ℚ
  maxX : ℚ
  maxY : ℚ
deriving DecidableEq, Repr

/-- Modelled from the spec: `seg_fast_approx_bounding_box(v1, v2)` is an
external primitive; per spec §4.7 it is a "cheap, endpoint+bulge-based
estimate". The model takes the axis-aligned box of the two endpoints and,
for an arc, additionally includes the arc apex `midpoint + (b/2)*perp`
(chord midpoint offset by the signed sagitta `b*c/2` along the unit chord
normal, which is `(b/2)*perp(v2-v1)` without any square root). -/
def segFastApproxBoundingBox (v1 v2 : Vertex) : AABB :=
  if v1.bulgeIsZero then
    ⟨min v1.x v2.x, min v1.y v2.y, max v1.x v2.x, max v1.y v2.y⟩
  else
    let apexX := (v1.x + v2.x) / 2 + v1.bulge / 2 * (-(v2.y - v1.y))
    let apexY := (v1.y + v2.y) / 2 + v1.bulge / 2 * (v2.x - v1.x)
    ⟨min (min v1.x v2.x) apexX, min (min v1.y v2.y) apexY,
     max (max v1.x v2.x) apexX, max (max v1.y v2.y) apexY⟩

/-- Embedding of `Polyline::create_approx_spatial_index`, parametric in the
per-segment approximate bounding-box function `segBox` and in the box type.
The external `StaticAABB2DIndexBuilder` is modelled as the list of boxes in
insertion order; `build()` succeeds exactly when the number of added boxes
equals the declared `seg_count`, which the source guarantees (`ln - 1`
forward boxes plus one wraparound box when closed), so `builder.build().ok()`
is `some` of that list. The source adds the forward segments
`(0,1), …, (ln-2, ln-1)` first and the wraparound segment `(ln-1, 0)` last. -/
def Polyline.createApproxSpatialIndex {β : Type} (segBox : Vertex → Vertex → β)
    (p : Polyline) : Option (List β) :=
  if p.vertexData.length < 2 then none
  else
    some
      (((List.range (p.vertexData.length - 1)).map fun i =>
          segBox (p.vertexData.getD i default) (p.vertexData.getD (i + 1) default)) ++
        (if p.isClosed then
          [segBox (p.vertexData.getLastD default) (p.vertexData.headD default)]
         else []))

/-! ## Arc linearization (`Polyline::arcs_to_approx_lines`)

The external numeric primitives this method calls — `seg_arc_radius_and_center`
(radius and center, used here with the actual radius), `angle`, `delta_angle`,
`acos` (inside the chord subdivision count), `point_on_circle`, the
`T -> usize` cast `to_usize`, the `usize -> T` cast `T::from`, and the
epsilon-aware `fuzzy_lt` — are bundled in a [SegMath] parameter. The two
casts return `Option`, exactly like `ToPrimitive::to_usize` and
`NumCast::from` in the source; they are the only sources of failure. -/

structure SegMath where
  radiusAndCenter : Vertex → Vertex → ℚ × Vec2
  angle : Vec2 → Vec2 → ℚ
  deltaAngle : ℚ → ℚ → ℚ
  acos : ℚ → ℚ
  pointOnCircle : ℚ → Vec2 → ℚ → Vec2
  toUsize : ℚ → Option ℕ
  ofUsize : ℕ → Option ℚ
  fuzzyLt : ℚ → ℚ → Bool

/-- The chord subdivision count `seg_count = (angle_diff / seg_sub_angle).ceil()`
for one arc segment (still as a numeric value, before the cast to `usize`). -/
def segCountVal (g : SegMath) (errorDistance : ℚ) (v1 v2 : Vertex) : ℚ :=
  let rc := g.radiusAndCenter v1 v2
  let startAngle := g.angle rc.2 v1.pos
  let endAngle := g.angle rc.2 v2.pos
  let angleDiff := |g.deltaAngle startAngle endAngle|
  let segSubAngle := 2 * |g.acos (1 - |errorDistance| / rc.1)|
  ⌈angleDiff / segSubAngle⌉

/-- The inner `for i in 1..usize_count` loop of `arcs_to_approx_lines`:
each index is cast back with `T::from(i)?` (failure propagating out) and a
point on the arc circle is emitted with zero bulge. -/
def arcPoints (g : SegMath) (segAngleOffset startAngle radius : ℚ)
    (center : Vec2) : List ℕ → Option (List Vertex)
  | [] => some []
  | i :: rest =>
    match g.ofUsize i with
    | none => none
    | some anglePos =>
      (arcPoints g segAngleOffset startAngle radius center rest).map
        fun tail =>
          let ang := anglePos * segAngleOffset + startAngle
          let pos := g.pointOnCircle radius center ang
          Vertex.mk pos.x pos.y 0 :: tail

/-- The vertexes one source segment contributes to the result of
`arcs_to_approx_lines`, or `none` when a numeric cast fails. Mirrors the
body of the `for (v1, v2) in self.iter_segments()` loop: a line segment
contributes `v1` verbatim; an arc whose radius is fuzzy-less than
`error_distance` collapses to `v1` with zero bulge; otherwise the arc
contributes its start point (zero bulge) followed by the `usize_count - 1`
equal-angle points on the arc (the loop `for i in 1..usize_count`). -/
def segBlock (g : SegMath) (errorDistance : ℚ) (v1 v2 : Vertex) :
    Option (List Vertex) :=
  if v1.bulgeIsZero then some [v1]
  else
    let rc := g.radiusAndCenter v1 v2
    if g.fuzzyLt rc.1 errorDistance then some [⟨v1.x, v1.y, 0⟩]
    else
      let startAngle := g.angle rc.2 v1.pos
      let endAngle := g.angle rc.2 v2.pos
      let angleDiff := |g.deltaAngle startAngle endAngle|
      let segCount := segCountVal g errorDistance v1 v2
      let segAngleOffset :=
        if v1.bulge < 0 then -angleDiff / segCount else angleDiff / segCount
      match g.toUsize segCount with
      | none => none
      | some usizeCount =>
        (arcPoints g segAngleOffset startAngle rc.1 rc.2
            (List.range' 1 (usizeCount - 1))).map
          fun pts => ⟨v1.x, v1.y, 0⟩ :: pts

/-- `?`-propagation over the segment loop of `arcs_to_approx_lines`: the
per-segment blocks in traversal order, or `none` as soon as one segment's
block fails. -/
def segBlocks (g : SegMath) (errorDistance : ℚ) :
    List (Vertex × Vertex) → Option (List (List Vertex))
  | [] => some []
  | s :: rest =>
    match segBlock g errorDistance s.1 s.2 with
    | none => none
    | some blk => (segBlocks g errorDistance rest).map (blk :: ·)

/-- Embedding of `Polyline::arcs_to_approx_lines`: the result polyline
carries the source's closed flag; an empty source returns the empty result
immediately; otherwise every segment contributes its block of vertexes (any
cast failure making the whole call fail), and for an open source the final
original vertex is appended verbatim. -/
def Polyline.arcsToApproxLines (g : SegMath) (p : Polyline)
    (errorDistance : ℚ) : Option Polyline :=
  if p.vertexData.length = 0 then some ⟨[], p.isClosed⟩
  else
    (segBlocks g errorDistance (segPairs p)).map
      fun blocks =>
        ⟨blocks.flatten ++
          (if p.isClosed then [] else [p.vertexData.getLastD default]),
         p.isClosed⟩

/-- The squared distance from the query point to the per-segment closest
point of segment `(i, j)` — the value the `closest_point` loop compares
(`dist2` in the source). -/
def segDistSq (scp : Vertex → Vertex → Vec2 → Vec2) (p : Polyline)
    (pt : Vec2) (ij : ℕ × ℕ) : ℚ :=
  (pt.sub (scp (p.vertexData.getD ij.1 default)
    (p.vertexData.getD ij.2 default) pt)).lengthSq

/-- Reference function for stating the `closest_point` fold: the first
(earliest-index) minimum of a list of squared distances, together with its
index — a later element replaces the current best only when strictly
smaller, exactly like the `dist2 < dist_squared` update in the source. -/
def listFirstMin : List ℚ → Option (ℕ × ℚ)
  | [] => none
  | x :: xs =>
    match listFirstMin xs with
    | none => some (0, x)
    | some (j, m) => if m < x then some (j + 1, m) else some (0, x)

/-- A concrete, fully computable instantiation of the external numeric
interface [SegMath], used to evaluate the embedding at concrete inputs. -/
def segMathTest : SegMath where
  radiusAndCenter := fun _ _ => (1, ⟨0, 0⟩)
  angle := fun _ _ => 0
  deltaAngle := fun a b => b - a
  acos := fun _ => 1
  pointOnCircle := fun _ c _ => c
  toUsize := fun _ => some 1
  ofUsize := fun n => some (n : ℚ)
  fuzzyLt := fun a b => decide (a < b)

/-! # Theorems -/

/-! ## Segment index traversal -/

/-- Running the iterator from a state past the first pass produces the
forward pairs `(pos-1, pos), (pos, pos+1), …` for `remaining` steps. -/
theorem SegIdxIter.collect_forward :
    ∀ (rem pos : ℕ), 1 ≤ pos →
      SegIdxIter.collect rem ⟨pos, rem, false⟩ =
        (List.range rem).map fun i => (pos - 1 + i, pos + i) := by
  intro rem
  induction rem with
  | zero => intro pos _; rfl
  | succ n ih =>
    intro pos hpos
    rw [SegIdxIter.collect]
    simp only [SegIdxIter.next, Nat.succ_ne_zero, if_false, Bool.false_eq_true,
      Nat.add_sub_cancel]
    rw [ih (pos + 1) (by omega)]
    rw [List.range_succ_eq_map]
    simp only [List.map_cons, List.map_map, List.cons.injEq, Prod.mk.injEq,
      List.map_inj_left, Function.comp_apply, List.mem_range]
    exact ⟨⟨by omega, by omega⟩, fun i _ => ⟨by omega, by omega⟩⟩

/-- Closed-form characterization of `segIndexes`: empty for fewer than two
vertexes; forward pairs for an open polyline; wraparound pair first and then
the forward pairs for a closed polyline. -/
theorem segIndexes_eq (n : ℕ) (closed : Bool) :
    segIndexes n closed =
      if n < 2 then []
      else
        (if closed then [(n - 1, 0)] else []) ++
          (List.range (n - 1)).map fun i => (i, i + 1) := by
  unfold segIndexes SegIdxIter.init
  by_cases h : n < 2
  · simp [h, SegIdxIter.collect]
  · simp only [if_neg h]
    cases closed with
    | false =>
      simpa [Nat.add_comm] using SegIdxIter.collect_forward (n - 1) 1 le_rfl
    | true =>
      obtain ⟨m, rfl⟩ : ∃ m, n = m + 2 := ⟨n - 2, by omega⟩
      simp only [if_true]
      rw [SegIdxIter.collect]
      simp only [SegIdxIter.next, Nat.succ_ne_zero, if_false, if_true]
      rw [show m + 2 - 1 = m + 1 from rfl,
        SegIdxIter.collect_forward (m + 1) 1 le_rfl]
      simp [Nat.add_comm]

/-- The number of segments: `0` when `n < 2`, `n` when closed, `n - 1` when
open. -/
theorem segIndexes_length (n : ℕ) (closed : Bool) :
    (segIndexes n closed).length =
      if n < 2 then 0 else if closed then n else n - 1 := by
  rw [segIndexes_eq]
  by_cases h : n < 2
  · simp [h]
  · cases closed
    · simp [h]
    · simp [h]; omega

/-- C4: for every vertex count `n`, the segment index traversal is empty
when `n < 2` regardless of the closed flag; for an open polyline it is
exactly the forward pairs `(0,1), …, (n-2, n-1)`; for a closed polyline it
is exactly `n` pairs with the wraparound pair `(n-1, 0)` first, followed by
the forward pairs — in particular `[(2,0), (0,1), (1,2)]` for a closed
3-vertex polyline. -/
theorem claim_C4_segment_traversal (n : ℕ) (closed : Bool) :
    (segIndexes n closed =
      if n < 2 then []
      else
        (if closed then [(n - 1, 0)] else []) ++
          (List.range (n - 1)).map fun i => (i, i + 1)) ∧
    (closed = true → ¬n < 2 → (segIndexes n closed).length = n) ∧
    segIndexes 3 true = [(2, 0), (0, 1), (1, 2)] := by
  refine ⟨segIndexes_eq n closed, fun hc hn => ?_, by decide⟩
  simp [segIndexes_length, hn, hc]

/-- Witness for C4 at concrete inputs. -/
theorem claim_C4_segment_traversal_witness :
    segIndexes 4 true =
      (if (4 : ℕ) < 2 then []
       else
         (if true then [(4 - 1, 0)] else []) ++
           (List.range (4 - 1)).map fun i => (i, i + 1)) ∧
    (segIndexes 4 true).length = 4 :=
  ⟨(claim_C4_segment_traversal 4 true).1,
    (claim_C4_segment_traversal 4 true).2.1 rfl (by decide)⟩

/-! ## Winding number: trivial cases (C9) -/

/-- C9: for every polyline that is open or has fewer than 2 vertices, and
every query point, `winding_number` returns 0. -/
theorem claim_C9_winding_open_or_small (p : Polyline) (pt : Vec2)
    (h : p.isClosed = false ∨ p.vertexData.length < 2) :
    p.windingNumber pt = 0 := by
  unfold Polyline.windingNumber
  exact if_pos h

/-- Witness for C9: a concrete open polyline. -/
theorem claim_C9_winding_open_or_small_witness :
    Polyline.windingNumber ⟨[⟨0, 0, 1⟩, ⟨2, 0, 1⟩], false⟩ ⟨1, 0⟩ = 0 :=
  claim_C9_winding_open_or_small ⟨[⟨0, 0, 1⟩, ⟨2, 0, 1⟩], false⟩ ⟨1, 0⟩
    (Or.inl rfl)

/-! ## Arc linearization on the empty polyline (C10) -/

/-- C10: for every empty polyline (open or closed) and every error
distance (and any behavior of the external numeric primitives),
`arcs_to_approx_lines` succeeds and returns an empty polyline whose closed
flag equals the source polyline's closed flag. -/
theorem claim_C10_linearize_empty (g : SegMath) (errorDistance : ℚ)
    (closed : Bool) :
    Polyline.arcsToApproxLines g ⟨[], closed⟩ errorDistance =
      some ⟨[], closed⟩ := rfl

/-! ## Direction inversion -/

theorem invertDirection_isClosed (p : Polyline) :
    p.invertDirection.isClosed = p.isClosed := by
  unfold Polyline.invertDirection
  by_cases h : p.vertexData.length < 2 <;> simp [h]

theorem invertDirection_length (p : Polyline) :
    p.invertDirection.vertexData.length = p.vertexData.length := by
  unfold Polyline.invertDirection
  by_cases h : p.vertexData.length < 2
  · simp [h]
  · simp only [if_neg h, List.length_append, List.length_zipWith,
      List.length_reverse, List.length_tail, List.length_singleton]
    omega

/-- Index-wise characterization of `invert_direction` for a polyline with at
least two vertexes: entry `i < n-1` carries the position of the original
vertex `n-1-i` and the negated bulge of the original vertex `n-2-i`; the
last entry carries the position of the original vertex `0`, with the
negated bulge of the original last vertex when closed and the original
bulge of vertex `0` (untouched by the shifting loop) when open. -/
theorem invertDirection_getD (p : Polyline) (h2 : 2 ≤ p.vertexData.length)
    (i : ℕ) (hi : i < p.vertexData.length) :
    p.invertDirection.vertexData.getD i default =
      if i < p.vertexData.length - 1 then
        ⟨(p.vertexData.getD (p.vertexData.length - 1 - i) default).x,
         (p.vertexData.getD (p.vertexData.length - 1 - i) default).y,
         -(p.vertexData.getD (p.vertexData.length - 2 - i) default).bulge⟩
      else if p.isClosed then
        ⟨(p.vertexData.getD 0 default).x, (p.vertexData.getD 0 default).y,
         -(p.vertexData.getD (p.vertexData.length - 1) default).bulge⟩
      else p.vertexData.getD 0 default := by
  have hn : ¬p.vertexData.length < 2 := by omega
  have hdata : p.invertDirection.vertexData =
      List.zipWith (fun a b => Vertex.mk a.x a.y (-b.bulge))
          p.vertexData.reverse p.vertexData.reverse.tail ++
        [match p.vertexData.reverse.getLast? with
         | none => default
         | some v =>
           if p.isClosed then
             ⟨v.x, v.y, -((p.vertexData.reverse.headD default).bulge)⟩
           else v] := by
    unfold Polyline.invertDirection
    rw [if_neg hn]
  have hzlen :
      (List.zipWith (fun a b => Vertex.mk a.x a.y (-b.bulge))
          p.vertexData.reverse p.vertexData.reverse.tail).length =
        p.vertexData.length - 1 := by
    simp only [List.length_zipWith, List.length_reverse, List.length_tail]
    omega
  by_cases hlt : i < p.vertexData.length - 1
  · rw [if_pos hlt, hdata]
    rw [List.getD_eq_getElem _ _
      (by simp only [List.length_append, hzlen, List.length_singleton]; omega)]
    rw [List.getElem_append_left (by rw [hzlen]; omega)]
    rw [List.getElem_zipWith]
    rw [List.getElem_tail]
    rw [List.getElem_reverse, List.getElem_reverse]
    rw [← List.getD_eq_getElem p.vertexData default
        (show p.vertexData.length - 1 - i < p.vertexData.length by omega),
      ← List.getD_eq_getElem p.vertexData default
        (show p.vertexData.length - 1 - (i + 1) < p.vertexData.length by omega)]
    rw [show p.vertexData.length - 1 - (i + 1) =
      p.vertexData.length - 2 - i by omega]
  · rw [if_neg hlt, hdata]
    have hi' : i = p.vertexData.length - 1 := by omega
    rw [List.getD_eq_getElem _ _
      (by simp only [List.length_append, hzlen, List.length_singleton]; omega)]
    rw [List.getElem_concat_length _ _ _ (by rw [hzlen, hi'])]
    have hlast : p.vertexData.reverse.getLast? =
        some (p.vertexData.getD 0 default) := by
      rw [List.getLast?_reverse, List.head?_eq_getElem?,
        List.getElem?_eq_getElem (by omega),
        List.getD_eq_getElem _ _ (by omega)]
    rw [hlast]
    by_cases hc : p.isClosed
    · simp only [hc, if_true]
      have hhead : p.vertexData.reverse.headD default =
          p.vertexData.getD (p.vertexData.length - 1) default := by
        rw [List.headD_eq_head?, List.head?_reverse, List.getLast?_eq_getElem?,
          List.getElem?_eq_getElem (by omega),
          List.getD_eq_getElem _ _ (by omega)]
        rfl
      rw [hhead]
    · simp only [hc, if_false]
      simp only [Bool.not_eq_true] at hc
      simp [hc]

theorem vertex_eq_of_fields {a b : Vertex} (hx : a.x = b.x) (hy : a.y = b.y)
    (hb : a.bulge = b.bulge) : a = b := by
  cases a; cases b; simp_all

theorem polyline_eq_of_fields {p q : Polyline} (h1 : p.vertexData = q.vertexData)
    (h2 : p.isClosed = q.isClosed) : p = q := by
  cases p; cases q; simp_all

/-- C3 counterexample: for the open polyline `[(0,0,0), (1,0,1)]`, applying
`invert_direction` twice does not restore the original vertex sequence (the
final, semantically unused bulge changes from `1` to `0`). -/
theorem claim_C3_counterexample :
    ¬(Polyline.invertDirection
        (Polyline.invertDirection ⟨[⟨0, 0, 0⟩, ⟨1, 0, 1⟩], false⟩) =
      (⟨[⟨0, 0, 0⟩, ⟨1, 0, 1⟩], false⟩ : Polyline)) := by decide

/-- C3 (amended): a single `invert_direction` is a no-op for fewer than two
vertexes; applying it twice restores the vertex sequence exactly for closed
polylines (and trivially for polylines with fewer than two vertexes); for
open polylines it restores every position and every bulge except the last
one, which becomes the negation of the original second-to-last bulge. -/
theorem claim_C3_invert_involution (p : Polyline) :
    (p.vertexData.length < 2 → p.invertDirection = p) ∧
    (p.isClosed = true → p.invertDirection.invertDirection = p) ∧
    p.invertDirection.invertDirection.vertexData.length =
      p.vertexData.length ∧
    p.invertDirection.invertDirection.isClosed = p.isClosed ∧
    (∀ i, i < p.vertexData.length →
      ((p.invertDirection.invertDirection.vertexData.getD i default).x =
          (p.vertexData.getD i default).x ∧
        (p.invertDirection.invertDirection.vertexData.getD i default).y =
          (p.vertexData.getD i default).y) ∧
      (i < p.vertexData.length - 1 →
        (p.invertDirection.invertDirection.vertexData.getD i default).bulge =
          (p.vertexData.getD i default).bulge)) ∧
    (p.isClosed = false → 2 ≤ p.vertexData.length →
      (p.invertDirection.invertDirection.vertexData.getD
          (p.vertexData.length - 1) default).bulge =
        -(p.vertexData.getD (p.vertexData.length - 2) default).bulge) := by
  have hsmall : p.vertexData.length < 2 → p.invertDirection = p := by
    intro h
    unfold Polyline.invertDirection
    rw [if_pos h]
  by_cases h2 : 2 ≤ p.vertexData.length
  case neg =>
    have hlt : p.vertexData.length < 2 := by omega
    have hid : p.invertDirection = p := hsmall hlt
    rw [hid, hid]
    exact ⟨fun _ => rfl, fun _ => rfl, rfl, rfl,
      fun i _ => ⟨⟨rfl, rfl⟩, fun _ => rfl⟩,
      fun _ h2' => absurd h2' (by omega)⟩
  case pos =>
    have hlen1 : p.invertDirection.vertexData.length = p.vertexData.length :=
      invertDirection_length p
    have hlen2 : p.invertDirection.invertDirection.vertexData.length =
        p.vertexData.length := by
      rw [invertDirection_length, hlen1]
    have hcl1 : p.invertDirection.isClosed = p.isClosed :=
      invertDirection_isClosed p
    have hcl2 : p.invertDirection.invertDirection.isClosed = p.isClosed := by
      rw [invertDirection_isClosed, hcl1]
    -- characterization of the double inversion at every index
    have key : ∀ i, i < p.vertexData.length →
        p.invertDirection.invertDirection.vertexData.getD i default =
          if i < p.vertexData.length - 1 then p.vertexData.getD i default
          else if p.isClosed then p.vertexData.getD i default
          else ⟨(p.vertexData.getD i default).x,
            (p.vertexData.getD i default).y,
            -(p.vertexData.getD (p.vertexData.length - 2) default).bulge⟩ := by
      intro i hi
      rw [invertDirection_getD p.invertDirection (by rw [hlen1]; exact h2) i
        (by rw [hlen1]; exact hi)]
      rw [hlen1, hcl1]
      by_cases hilt : i < p.vertexData.length - 1
      · rw [if_pos hilt, if_pos hilt]
        have hb : p.vertexData.length - 2 - i < p.vertexData.length - 1 := by
          omega
        have hgb := invertDirection_getD p h2 (p.vertexData.length - 2 - i)
          (by omega)
        rw [if_pos hb] at hgb
        by_cases hi0 : 0 < i
        · have hga := invertDirection_getD p h2 (p.vertexData.length - 1 - i)
            (by omega)
          rw [if_pos (show p.vertexData.length - 1 - i <
            p.vertexData.length - 1 by omega)] at hga
          rw [hga, hgb]
          simp only
          rw [show p.vertexData.length - 1 - (p.vertexData.length - 1 - i) =
            i by omega]
          rw [show p.vertexData.length - 2 - (p.vertexData.length - 2 - i) =
            i by omega]
          exact vertex_eq_of_fields rfl rfl (neg_neg _)
        · have hi0' : i = 0 := by omega
          subst hi0'
          have hga := invertDirection_getD p h2 (p.vertexData.length - 1 - 0)
            (by omega)
          rw [if_neg (show ¬(p.vertexData.length - 1 - 0 <
            p.vertexData.length - 1) by omega)] at hga
          rw [hga, hgb]
          simp only
          rw [show p.vertexData.length - 2 - (p.vertexData.length - 2 - 0) =
            0 by omega]
          by_cases hc : p.isClosed
          · rw [hc]
            simp only [if_true]
            exact vertex_eq_of_fields rfl rfl (neg_neg _)
          · simp only [Bool.not_eq_true] at hc
            rw [hc]
            simp only [Bool.false_eq_true, if_false]
            exact vertex_eq_of_fields rfl rfl (neg_neg _)
      · rw [if_neg hilt, if_neg hilt]
        have hieq : i = p.vertexData.length - 1 := by omega
        have hg0 := invertDirection_getD p h2 0 (by omega)
        rw [if_pos (show 0 < p.vertexData.length - 1 by omega)] at hg0
        by_cases hc : p.isClosed
        · rw [hc]
          simp only [if_true]
          have hgn := invertDirection_getD p h2 (p.vertexData.length - 1)
            (by omega)
          rw [if_neg (show ¬(p.vertexData.length - 1 <
            p.vertexData.length - 1) by omega), hc] at hgn
          simp only [if_true] at hgn
          rw [hg0, hgn]
          simp only
          rw [show p.vertexData.length - 1 - 0 = p.vertexData.length - 1
            by omega, hieq]
          exact vertex_eq_of_fields rfl rfl (neg_neg _)
        · simp only [Bool.not_eq_true] at hc
          rw [hc]
          simp only [Bool.false_eq_true, if_false]
          rw [hg0]
          rw [show p.vertexData.length - 1 - 0 = p.vertexData.length - 1
            by omega,
            show p.vertexData.length - 2 - 0 = p.vertexData.length - 2
            by omega, hieq]
    refine ⟨hsmall, ?_, hlen2, hcl2, ?_, ?_⟩
    · -- closed polylines: exact restoration
      intro hc
      refine polyline_eq_of_fields ?_ (by rw [hcl2])
      apply List.ext_getElem (by rw [hlen2])
      intro i hi1 hi2
      have hgd := key i hi2
      rw [List.getD_eq_getElem _ _ hi1] at hgd
      by_cases hilt : i < p.vertexData.length - 1
      · rw [if_pos hilt, List.getD_eq_getElem _ _ hi2] at hgd
        exact hgd
      · rw [if_neg hilt, hc] at hgd
        simp only [if_true] at hgd
        rw [List.getD_eq_getElem _ _ hi2] at hgd
        exact hgd
    · -- positions always restored; bulges restored except possibly last
      intro i hi
      have hgd := key i hi
      by_cases hilt : i < p.vertexData.length - 1
      · rw [if_pos hilt] at hgd
        rw [hgd]
        exact ⟨⟨rfl, rfl⟩, fun _ => rfl⟩
      · rw [if_neg hilt] at hgd
        by_cases hc : p.isClosed
        · rw [hc] at hgd
          simp only [if_true] at hgd
          rw [hgd]
          exact ⟨⟨rfl, rfl⟩, fun _ => rfl⟩
        · simp only [Bool.not_eq_true] at hc
          rw [hc] at hgd
          simp only [Bool.false_eq_true, if_false] at hgd
          rw [hgd]
          exact ⟨⟨rfl, rfl⟩, fun h => absurd h hilt⟩
    · -- open polylines: the last bulge is the negated second-to-last bulge
      intro hc _
      have hgd := key (p.vertexData.length - 1) (by omega)
      rw [if_neg (by omega), hc] at hgd
      simp only [Bool.false_eq_true, if_false] at hgd
      rw [hgd]

/-- Witness for C3 at concrete inputs: a closed polyline is restored
exactly by double inversion. -/
theorem claim_C3_invert_involution_witness :
    Polyline.invertDirection
        (Polyline.invertDirection ⟨[⟨0, 0, 1⟩, ⟨2, 0, 2⟩, ⟨2, 2, 3⟩], true⟩) =
      (⟨[⟨0, 0, 1⟩, ⟨2, 0, 2⟩, ⟨2, 2, 3⟩], true⟩ : Polyline) :=
  (claim_C3_invert_involution
    (⟨[⟨0, 0, 1⟩, ⟨2, 0, 2⟩, ⟨2, 2, 3⟩], true⟩ : Polyline)).2.1 rfl

/-! ## Winding number on the self-intersecting two-loop polyline (C2) -/

/-- C2: for the closed polyline `[(0,0,1), (2,0,1), (0,0,1), (4,0,1)]` (two
overlapping counter-clockwise arc loops), the winding number is `2` at
`(1,0)` and `0` at `(-1,0)`; after `invert_direction`, the winding number at
`(1,0)` is `-2`. -/
theorem claim_C2_winding_two_loops :
    Polyline.windingNumber
        ⟨[⟨0, 0, 1⟩, ⟨2, 0, 1⟩, ⟨0, 0, 1⟩, ⟨4, 0, 1⟩], true⟩ ⟨1, 0⟩ = 2 ∧
    Polyline.windingNumber
        ⟨[⟨0, 0, 1⟩, ⟨2, 0, 1⟩, ⟨0, 0, 1⟩, ⟨4, 0, 1⟩], true⟩ ⟨-1, 0⟩ = 0 ∧
    Polyline.windingNumber
        (Polyline.invertDirection
          ⟨[⟨0, 0, 1⟩, ⟨2, 0, 1⟩, ⟨0, 0, 1⟩, ⟨4, 0, 1⟩], true⟩) ⟨1, 0⟩ =
      -2 := by
  refine ⟨?_, ?_, ?_⟩ <;>
    norm_num [Polyline.windingNumber, Polyline.invertDirection, segPairs,
      processArcWinding, processLineWinding, segArcRadiusSqAndCenter, isLeft,
      isLeftOrEqual, distSq, Vec2.sub, Vec2.lengthSq, Vertex.pos,
      Vertex.bulgeIsZero, List.getLastD]

/-! ## Spatial index construction (C1) -/

/-- C1 counterexample: for the closed triangle `[(0,0), (1,0), (0,1)]` (all
line segments), the spatial index entries are *not* in the traversal order
of `iter_segment_indexes` (which yields the wraparound segment `(2,0)`
first): the source adds the forward segments first and the wraparound
segment last. -/
theorem claim_C1_counterexample :
    ¬(Polyline.createApproxSpatialIndex segFastApproxBoundingBox
        ⟨[⟨0, 0, 0⟩, ⟨1, 0, 0⟩, ⟨0, 1, 0⟩], true⟩ =
      some ((segIndexes 3 true).map fun ij =>
        segFastApproxBoundingBox
          ([(⟨0, 0, 0⟩ : Vertex), ⟨1, 0, 0⟩, ⟨0, 1, 0⟩].getD ij.1 default)
          ([(⟨0, 0, 0⟩ : Vertex), ⟨1, 0, 0⟩, ⟨0, 1, 0⟩].getD ij.2 default))) := by
  have h3 : segIndexes 3 true = [(2, 0), (0, 1), (1, 2)] := by decide
  rw [h3]
  norm_num [Polyline.createApproxSpatialIndex, segFastApproxBoundingBox,
    Vertex.bulgeIsZero, List.range_succ, List.getLastD, AABB.mk.injEq]

/-- C1 (amended): `create_approx_spatial_index` returns no index exactly
when the polyline has fewer than 2 vertices; otherwise it returns one
bounding-box entry per segment, with entry `k` for `k < n-1` the box of the
forward segment `(k, k+1)` and, for a closed polyline, the box of the
wraparound segment `(n-1, 0)` as the *last* entry (not the first). -/
theorem claim_C1_spatial_index {β : Type} (segBox : Vertex → Vertex → β)
    (p : Polyline) :
    (p.createApproxSpatialIndex segBox = none ↔ p.vertexData.length < 2) ∧
    (∀ l, p.createApproxSpatialIndex segBox = some l →
      l.length = (segIndexes p.vertexData.length p.isClosed).length ∧
      l = ((segIndexes p.vertexData.length false).map fun ij =>
            segBox (p.vertexData.getD ij.1 default)
              (p.vertexData.getD ij.2 default)) ++
          (if p.isClosed then
            [segBox (p.vertexData.getLastD default) (p.vertexData.headD default)]
           else [])) := by
  unfold Polyline.createApproxSpatialIndex
  by_cases h : p.vertexData.length < 2
  · rw [if_pos h]
    exact ⟨⟨fun _ => h, fun _ => rfl⟩, fun l hl => Option.noConfusion hl⟩
  · rw [if_neg h]
    refine ⟨⟨fun hn => Option.noConfusion hn, fun hlt => absurd hlt h⟩,
      fun l hl => ?_⟩
    have hl' : l = ((List.range (p.vertexData.length - 1)).map fun i =>
        segBox (p.vertexData.getD i default)
          (p.vertexData.getD (i + 1) default)) ++
        (if p.isClosed then
          [segBox (p.vertexData.getLastD default) (p.vertexData.headD default)]
         else []) := by
      exact (Option.some_injective _ hl.symm)
    constructor
    · rw [hl', segIndexes_length, if_neg h]
      simp only [List.length_append, List.length_map, List.length_range]
      cases p.isClosed
      · simp
      · simp only [if_true, List.length_singleton]
        omega
    · rw [hl', segIndexes_eq, if_neg h]
      simp only [Bool.false_eq_true, if_false, List.nil_append, List.map_map]
      rfl

/-- Witness for C1 at a concrete closed polyline. -/
theorem claim_C1_spatial_index_witness :
    ((Polyline.createApproxSpatialIndex segFastApproxBoundingBox
        ⟨[⟨0, 0, 0⟩, ⟨1, 0, 0⟩, ⟨0, 1, 0⟩], true⟩ = none) ↔ (3 : ℕ) < 2) ∧
    ([segFastApproxBoundingBox ⟨0, 0, 0⟩ ⟨1, 0, 0⟩,
      segFastApproxBoundingBox ⟨1, 0, 0⟩ ⟨0, 1, 0⟩,
      segFastApproxBoundingBox ⟨0, 1, 0⟩ ⟨0, 0, 0⟩].length =
        (segIndexes 3 true).length ∧
      [segFastApproxBoundingBox ⟨0, 0, 0⟩ ⟨1, 0, 0⟩,
       segFastApproxBoundingBox ⟨1, 0, 0⟩ ⟨0, 1, 0⟩,
       segFastApproxBoundingBox ⟨0, 1, 0⟩ ⟨0, 0, 0⟩] =
        ((segIndexes 3 false).map fun ij =>
          segFastApproxBoundingBox
            ([(⟨0, 0, 0⟩ : Vertex), ⟨1, 0, 0⟩, ⟨0, 1, 0⟩].getD ij.1 default)
            ([(⟨0, 0, 0⟩ : Vertex), ⟨1, 0, 0⟩, ⟨0, 1, 0⟩].getD ij.2 default)) ++
          (if true then
            [segFastApproxBoundingBox
              ([(⟨0, 0, 0⟩ : Vertex), ⟨1, 0, 0⟩, ⟨0, 1, 0⟩].getLastD default)
              ([(⟨0, 0, 0⟩ : Vertex), ⟨1, 0, 0⟩, ⟨0, 1, 0⟩].headD default)]
           else [])) :=
  ⟨(claim_C1_spatial_index segFastApproxBoundingBox
      ⟨[⟨0, 0, 0⟩, ⟨1, 0, 0⟩, ⟨0, 1, 0⟩], true⟩).1,
    (claim_C1_spatial_index segFastApproxBoundingBox
      ⟨[⟨0, 0, 0⟩, ⟨1, 0, 0⟩, ⟨0, 1, 0⟩], true⟩).2 _ (by decide)⟩

/-! ## Signed area (C5, C6) -/

theorem invertDirection_small (p : Polyline) (h : p.vertexData.length < 2) :
    p.invertDirection = p := by
  unfold Polyline.invertDirection
  rw [if_pos h]

theorem segPairs_small (p : Polyline) (h : p.vertexData.length < 2) :
    segPairs p = [] := by
  obtain ⟨data, closed⟩ := p
  simp only at h
  rcases data with _ | ⟨v, _ | ⟨w, rest⟩⟩
  · rfl
  · rfl
  · simp only [List.length_cons] at h
    omega

theorem headD_eq_getD {α : Type} (l : List α) (d : α) :
    l.headD d = l.getD 0 d := by
  cases l <;> rfl

theorem getLastD_eq_getD {α : Type} :
    ∀ (l : List α) (d : α), l.getLastD d = l.getD (l.length - 1) d := by
  intro l
  induction l with
  | nil => intro d; rfl
  | cons a t ih =>
    intro d
    cases t with
    | nil => rfl
    | cons b t' =>
      have h1 : (a :: b :: t').getLastD d = (b :: t').getLastD a := by
        rw [List.getLastD_eq_getLast?, List.getLastD_eq_getLast?,
          List.getLast?_cons_cons]
        cases hgl : (b :: t').getLast? with
        | none =>
          rw [List.getLast?_eq_none_iff] at hgl
          cases hgl
        | some x => rfl
      rw [h1, ih a]
      have hlt : (b :: t').length - 1 < (b :: t').length := by simp
      rw [show (a :: b :: t').length - 1 = ((b :: t').length - 1) + 1 by simp]
      rw [List.getD_cons_succ]
      rw [List.getD_eq_getElem _ _ hlt, List.getD_eq_getElem _ _ hlt]

/-- `getLastD` of a list with at least one element does not depend on the
fallback value. -/
theorem getLastD_irrel {α : Type} (l : List α) (h : l ≠ []) (d d' : α) :
    l.getLastD d = l.getLastD d' := by
  rw [getLastD_eq_getD, getLastD_eq_getD]
  have hlt : l.length - 1 < l.length := by
    cases l
    · exact absurd rfl h
    · simp
  rw [List.getD_eq_getElem _ _ hlt, List.getD_eq_getElem _ _ hlt]

/-- `segPairs` of a closed polyline with at least two vertexes: the
wraparound pair first, then the adjacent pairs. -/
theorem segPairs_closed (p : Polyline) (h2 : 2 ≤ p.vertexData.length)
    (hc : p.isClosed = true) :
    segPairs p =
      (p.vertexData.getLastD default, p.vertexData.headD default) ::
        p.vertexData.zip p.vertexData.tail := by
  obtain ⟨data, closed⟩ := p
  simp only at h2 hc
  subst hc
  rcases data with _ | ⟨v, _ | ⟨w, rest⟩⟩
  · simp at h2
  · simp at h2
  · show (if true = true then [((v :: w :: rest).getLastD v, v)] else []) ++
      (v :: w :: rest).zip (w :: rest) = _
    simp only [if_true, List.singleton_append, List.tail_cons,
      List.headD_cons]
    rw [getLastD_irrel (v :: w :: rest) (by simp) v default]

/-- `segPairs` of an open polyline: just the adjacent pairs. -/
theorem segPairs_open (p : Polyline) (hc : p.isClosed = false) :
    segPairs p = p.vertexData.zip p.vertexData.tail := by
  obtain ⟨data, closed⟩ := p
  simp only at hc
  subst hc
  rcases data with _ | ⟨v, _ | ⟨w, rest⟩⟩
  · rfl
  · rfl
  · show (if false = true then [((v :: w :: rest).getLastD v, v)] else []) ++
      (v :: w :: rest).zip (w :: rest) = _
    simp

theorem foldl_add_eq_sum {α : Type} (f : α → ℚ) :
    ∀ (l : List α) (a : ℚ),
      l.foldl (fun acc x => acc + f x) a = a + (l.map f).sum := by
  intro l
  induction l with
  | nil => intro a; simp
  | cons x xs ih =>
    intro a
    simp only [List.foldl_cons, List.map_cons, List.sum_cons]
    rw [ih]
    ring

theorem sum_map_add_split {α : Type} (f g : α → ℚ) (l : List α) :
    (l.map fun x => f x + g x).sum = (l.map f).sum + (l.map g).sum := by
  induction l with
  | nil => simp
  | cons x xs ih =>
    simp only [List.map_cons, List.sum_cons, ih]
    ring

/-- Sum over adjacent pairs as a sum over indexes. -/
theorem zip_tail_map_sum (G : Vertex → Vertex → ℚ) :
    ∀ (l : List Vertex),
      ((l.zip l.tail).map fun s => G s.1 s.2).sum =
        ∑ i ∈ Finset.range (l.length - 1),
          G (l.getD i default) (l.getD (i + 1) default) := by
  intro l
  induction l with
  | nil => simp
  | cons a t ih =>
    cases t with
    | nil => simp
    | cons b t' =>
      simp only [List.tail_cons, List.zip_cons_cons, List.map_cons,
        List.sum_cons] at ih ⊢
      rw [ih]
      rw [show (a :: b :: t').length - 1 = ((b :: t').length - 1) + 1 by simp]
      rw [Finset.sum_range_succ']
      simp only [List.getD_cons_succ, List.getD_cons_zero]
      ring

/-- `segDoubleArea` negates when the segment endpoints swap positions and
the governing bulge is negated (the second vertex's bulge does not enter the
contribution). -/
theorem segDoubleArea_swap (af sq : ℚ → ℚ) (v1 v2 u w : Vertex)
    (hux : u.x = v2.x) (huy : u.y = v2.y) (hub : u.bulge = -v1.bulge)
    (hwx : w.x = v1.x) (hwy : w.y = v1.y) :
    segDoubleArea af sq u w = -segDoubleArea af sq v1 v2 := by
  unfold segDoubleArea Vertex.bulgeIsZero
  simp only [Vertex.pos, distSq, Vec2.sub, Vec2.lengthSq, hux, huy, hub, hwx,
    hwy, abs_neg, neg_eq_zero, neg_lt_zero]
  rw [show (v1.x - v2.x) * (v1.x - v2.x) + (v1.y - v2.y) * (v1.y - v2.y) =
      (v2.x - v1.x) * (v2.x - v1.x) + (v2.y - v1.y) * (v2.y - v1.y) from by
    ring]
  rcases lt_trichotomy v1.bulge 0 with hneg | h0 | hpos
  · have hne : ¬v1.bulge = 0 := by linarith
    rw [if_neg hne, if_neg hne, if_neg (show ¬0 < v1.bulge by linarith),
      if_pos hneg]
    ring
  · rw [if_pos h0, if_pos h0]
    ring
  · have hne : ¬v1.bulge = 0 := by linarith
    rw [if_neg hne, if_neg hne, if_pos hpos,
      if_neg (show ¬v1.bulge < 0 by linarith)]
    ring

/-- The area of a polyline with fewer than two vertexes is zero. -/
theorem area_small (af sq : ℚ → ℚ) (p : Polyline)
    (h : p.vertexData.length < 2) : p.area af sq = 0 := by
  unfold Polyline.area
  by_cases hc : p.isClosed = false
  · rw [if_pos hc]
  · rw [if_neg hc, segPairs_small p h]
    simp

/-- C5: for every open polyline `area` returns exactly 0; for every
polyline, `area` equals the spec §4.5 formula: half of (the shoelace sum
over the chords between consecutive vertices plus, for each arc segment,
the doubled signed circular-segment area — sector minus chord triangle,
sign-flipped for negative bulge). Stated for every sweep-angle function
`af` and square-root function `sq` standing for the external
`angle_from_bulge` and `sqrt`. -/
theorem claim_C5_area_formula (af sq : ℚ → ℚ) (p : Polyline) :
    (p.isClosed = false → p.area af sq = 0) ∧
    p.area af sq = areaSpec af sq p := by
  constructor
  · intro hc
    unfold Polyline.area
    rw [if_pos hc]
  · unfold Polyline.area areaSpec
    by_cases hc : p.isClosed = false
    · rw [if_pos hc, if_pos hc]
    · rw [if_neg hc, if_neg hc]
      congr 1
      rw [foldl_add_eq_sum, zero_add]
      have hsplit : ∀ s : Vertex × Vertex,
          segDoubleArea af sq s.1 s.2 =
            (s.1.x * s.2.y - s.1.y * s.2.x) +
              (if s.1.bulgeIsZero then 0
               else circularSegmentDoubleArea af sq s.1 s.2) := by
        intro s
        unfold segDoubleArea circularSegmentDoubleArea
        rfl
      calc ((segPairs p).map fun s => segDoubleArea af sq s.1 s.2).sum
          = ((segPairs p).map fun s =>
              (s.1.x * s.2.y - s.1.y * s.2.x) +
                (if s.1.bulgeIsZero then 0
                 else circularSegmentDoubleArea af sq s.1 s.2)).sum := by
            refine congrArg List.sum (List.map_congr_left fun s _ => hsplit s)
        _ = shoelaceSum p +
              ((segPairs p).map fun s =>
                if s.1.bulgeIsZero then 0
                else circularSegmentDoubleArea af sq s.1 s.2).sum := by
            rw [sum_map_add_split]
            rfl

/-- Witness for C5: a concrete open polyline has area 0 and satisfies the
formula. -/
theorem claim_C5_area_formula_witness :
    Polyline.area (fun x => x) (fun x => x)
        ⟨[⟨0, 0, 0⟩, ⟨2, 0, 0⟩, ⟨2, 2, 0⟩], false⟩ = 0 ∧
    Polyline.area (fun x => x) (fun x => x)
        ⟨[⟨0, 0, 0⟩, ⟨2, 0, 0⟩, ⟨2, 2, 0⟩], false⟩ =
      areaSpec (fun x => x) (fun x => x)
        ⟨[⟨0, 0, 0⟩, ⟨2, 0, 0⟩, ⟨2, 2, 0⟩], false⟩ :=
  ⟨(claim_C5_area_formula (fun x => x) (fun x => x)
      ⟨[⟨0, 0, 0⟩, ⟨2, 0, 0⟩, ⟨2, 2, 0⟩], false⟩).1 rfl,
    (claim_C5_area_formula (fun x => x) (fun x => x)
      ⟨[⟨0, 0, 0⟩, ⟨2, 0, 0⟩, ⟨2, 2, 0⟩], false⟩).2⟩

/-- C6: `area(invert_direction(p)) == -area(p)` — stated for every polyline
(for open polylines both sides are 0) and every sweep-angle and square-root
function standing for the external primitives. -/
theorem claim_C6_area_negates_on_invert (af sq : ℚ → ℚ) (p : Polyline) :
    (p.invertDirection).area af sq = -(p.area af sq) := by
  by_cases h2 : 2 ≤ p.vertexData.length
  case neg =>
    have hsm : p.vertexData.length < 2 := by omega
    rw [invertDirection_small p hsm, area_small af sq p hsm]
    simp
  case pos =>
    by_cases hc : p.isClosed = true
    case neg =>
      have hc' : p.isClosed = false := by
        cases hcc : p.isClosed
        · rfl
        · exact absurd hcc hc
      unfold Polyline.area
      rw [invertDirection_isClosed, hc']
      simp
    case pos =>
      have hlen1 : p.invertDirection.vertexData.length =
          p.vertexData.length := invertDirection_length p
      have hcl1 : p.invertDirection.isClosed = true := by
        rw [invertDirection_isClosed, hc]
      unfold Polyline.area
      rw [invertDirection_isClosed, hc]
      simp only [Bool.true_eq_false, if_false]
      -- reduce to equality of the two doubled-area sums
      have hsum : (segPairs p.invertDirection).foldl
          (fun acc s => acc + segDoubleArea af sq s.1 s.2) 0 =
          -((segPairs p).foldl
            (fun acc s => acc + segDoubleArea af sq s.1 s.2) 0) := by
        rw [foldl_add_eq_sum, foldl_add_eq_sum, zero_add, zero_add]
        rw [segPairs_closed p h2 hc, segPairs_closed p.invertDirection
          (by rw [hlen1]; exact h2) hcl1]
        simp only [List.map_cons, List.sum_cons]
        rw [zip_tail_map_sum, zip_tail_map_sum, hlen1]
        -- wraparound contribution negates
        have hq0 := invertDirection_getD p h2 0 (by omega)
        rw [if_pos (show 0 < p.vertexData.length - 1 by omega)] at hq0
        have hqn := invertDirection_getD p h2 (p.vertexData.length - 1)
          (by omega)
        rw [if_neg (show ¬(p.vertexData.length - 1 < p.vertexData.length - 1)
          by omega), hc] at hqn
        simp only [if_true] at hqn
        have hwrap : segDoubleArea af sq
            (p.invertDirection.vertexData.getLastD default)
            (p.invertDirection.vertexData.headD default) =
            -segDoubleArea af sq (p.vertexData.getLastD default)
              (p.vertexData.headD default) := by
          rw [getLastD_eq_getD, headD_eq_getD, hlen1, hqn, hq0]
          rw [getLastD_eq_getD, headD_eq_getD]
          refine segDoubleArea_swap af sq _ _ _ _ ?_ ?_ ?_ ?_ ?_ <;>
            simp only [] <;>
            rw [show p.vertexData.length - 1 - 0 = p.vertexData.length - 1
              by omega]
        -- forward contributions negate and reverse
        have hfwd : ∑ i ∈ Finset.range (p.vertexData.length - 1),
            segDoubleArea af sq
              (p.invertDirection.vertexData.getD i default)
              (p.invertDirection.vertexData.getD (i + 1) default) =
            -∑ i ∈ Finset.range (p.vertexData.length - 1),
              segDoubleArea af sq (p.vertexData.getD i default)
                (p.vertexData.getD (i + 1) default) := by
          rw [← Finset.sum_neg_distrib]
          rw [← Finset.sum_range_reflect
            (fun i => -segDoubleArea af sq (p.vertexData.getD i default)
              (p.vertexData.getD (i + 1) default)) (p.vertexData.length - 1)]
          refine Finset.sum_congr rfl fun i hi => ?_
          rw [Finset.mem_range] at hi
          have hqi := invertDirection_getD p h2 i (by omega)
          rw [if_pos hi] at hqi
          have hidx : p.vertexData.length - 1 - 1 - i =
              p.vertexData.length - 2 - i := by omega
          rw [hidx]
          rw [show p.vertexData.length - 2 - i + 1 =
            p.vertexData.length - 1 - i by omega]
          have hqx : (p.invertDirection.vertexData.getD (i + 1) default).x =
              (p.vertexData.getD (p.vertexData.length - 2 - i) default).x ∧
              (p.invertDirection.vertexData.getD (i + 1) default).y =
              (p.vertexData.getD (p.vertexData.length - 2 - i) default).y := by
            by_cases hi1 : i + 1 < p.vertexData.length - 1
            · have hqi1 := invertDirection_getD p h2 (i + 1) (by omega)
              rw [if_pos hi1] at hqi1
              rw [hqi1]
              rw [show p.vertexData.length - 1 - (i + 1) =
                p.vertexData.length - 2 - i by omega]
              exact ⟨rfl, rfl⟩
            · have hieq : i + 1 = p.vertexData.length - 1 := by omega
              have hqi1 := invertDirection_getD p h2 (i + 1) (by omega)
              rw [if_neg hi1, hc] at hqi1
              simp only [if_true] at hqi1
              rw [hqi1]
              rw [show p.vertexData.length - 2 - i = 0 by omega]
              exact ⟨rfl, rfl⟩
          refine segDoubleArea_swap af sq _ _ _ _ ?_ ?_ ?_ hqx.1 hqx.2
          · rw [hqi]
          · rw [hqi]
          · rw [hqi]
        rw [hwrap, hfwd]
        ring
      rw [hsum]
      ring

/-! ## Arc linearization failure analysis (C7) -/

/-- `arcPoints` fails only because some index failed the `usize -> T` cast. -/
theorem arcPoints_none (g : SegMath) (sao sa r : ℚ) (c : Vec2) :
    ∀ l : List ℕ, arcPoints g sao sa r c l = none →
      ∃ i ∈ l, g.ofUsize i = none := by
  intro l
  induction l with
  | nil => intro h; cases h
  | cons i rest ih =>
    intro h
    unfold arcPoints at h
    cases hof : g.ofUsize i with
    | none => exact ⟨i, List.mem_cons_self _ _, hof⟩
    | some ap =>
      rw [hof] at h
      rw [Option.map_eq_none'] at h
      obtain ⟨j, hj, hjn⟩ := ih h
      exact ⟨j, List.mem_cons_of_mem _ hj, hjn⟩

/-- `segBlocks` fails only because some segment's block failed. -/
theorem segBlocks_none (g : SegMath) (e : ℚ) :
    ∀ l : List (Vertex × Vertex), segBlocks g e l = none →
      ∃ s ∈ l, segBlock g e s.1 s.2 = none := by
  intro l
  induction l with
  | nil => intro h; cases h
  | cons s rest ih =>
    intro h
    unfold segBlocks at h
    cases hb : segBlock g e s.1 s.2 with
    | none => exact ⟨s, List.mem_cons_self _ _, hb⟩
    | some blk =>
      rw [hb, Option.map_eq_none'] at h
      obtain ⟨t, ht, htn⟩ := ih h
      exact ⟨t, List.mem_cons_of_mem _ ht, htn⟩

/-- A single segment's block fails only on an arc whose radius was not
fuzzy-below the error distance, and only because the chord-count cast to
`usize` failed or some loop index failed the cast back to the numeric
type. -/
theorem segBlock_none (g : SegMath) (e : ℚ) (v1 v2 : Vertex)
    (h : segBlock g e v1 v2 = none) :
    ¬v1.bulgeIsZero ∧
      g.fuzzyLt (g.radiusAndCenter v1 v2).1 e = false ∧
      (g.toUsize (segCountVal g e v1 v2) = none ∨
        ∃ n, g.toUsize (segCountVal g e v1 v2) = some n ∧
          ∃ i ∈ List.range' 1 (n - 1), g.ofUsize i = none) := by
  by_cases hz : v1.bulgeIsZero
  · unfold segBlock at h
    rw [if_pos hz] at h
    cases h
  · refine ⟨hz, ?_⟩
    unfold segBlock at h
    rw [if_neg hz] at h
    simp only at h
    cases hf : g.fuzzyLt (g.radiusAndCenter v1 v2).1 e with
    | true =>
      rw [hf] at h
      simp only [if_true] at h
      cases h
    | false =>
      refine ⟨rfl, ?_⟩
      rw [hf] at h
      simp only [Bool.false_eq_true, if_false] at h
      cases ht : g.toUsize (segCountVal g e v1 v2) with
      | none => exact Or.inl rfl
      | some n =>
        rw [ht, Option.map_eq_none'] at h
        exact Or.inr ⟨n, rfl, arcPoints_none g _ _ _ _ _ h⟩

/-- C7: `arcs_to_approx_lines` fails only through numeric-range exhaustion
of the casts between the numeric type and the whole chord count (the
`usize` casts returning nothing), and in every successful case the result's
closed flag equals the source's and, for an open nonempty source, the final
original vertex is appended verbatim as the last vertex. -/
theorem claim_C7_linearize_contract (g : SegMath) (p : Polyline) (e : ℚ) :
    (∀ q, p.arcsToApproxLines g e = some q →
      q.isClosed = p.isClosed ∧
      (p.isClosed = false → p.vertexData ≠ [] →
        q.vertexData.getLast? = some (p.vertexData.getLastD default))) ∧
    (p.arcsToApproxLines g e = none →
      ∃ s ∈ segPairs p, ¬s.1.bulgeIsZero ∧
        g.fuzzyLt (g.radiusAndCenter s.1 s.2).1 e = false ∧
        (g.toUsize (segCountVal g e s.1 s.2) = none ∨
          ∃ n, g.toUsize (segCountVal g e s.1 s.2) = some n ∧
            ∃ i ∈ List.range' 1 (n - 1), g.ofUsize i = none)) := by
  constructor
  · intro q hq
    unfold Polyline.arcsToApproxLines at hq
    by_cases hlen : p.vertexData.length = 0
    · rw [if_pos hlen] at hq
      have hq' : q = ⟨[], p.isClosed⟩ := (Option.some_injective _ hq).symm
      subst hq'
      refine ⟨rfl, fun _ hne => ?_⟩
      exact absurd (List.length_eq_zero.mp hlen) hne
    · rw [if_neg hlen, Option.map_eq_some'] at hq
      obtain ⟨blocks, _, hq'⟩ := hq
      subst hq'
      refine ⟨rfl, fun hopen _ => ?_⟩
      rw [hopen]
      simp only [Bool.false_eq_true, if_false]
      exact List.getLast?_concat _
  · intro hn
    unfold Polyline.arcsToApproxLines at hn
    by_cases hlen : p.vertexData.length = 0
    · rw [if_pos hlen] at hn
      cases hn
    · rw [if_neg hlen, Option.map_eq_none'] at hn
      obtain ⟨s, hs, hsn⟩ := segBlocks_none g e _ hn
      exact ⟨s, hs, segBlock_none g e s.1 s.2 hsn⟩

/-- Witness for C7 at a concrete open polyline and the concrete numeric
interface. -/
theorem claim_C7_linearize_contract_witness :
    (⟨[⟨0, 0, 0⟩, ⟨1, 1, 5⟩], false⟩ : Polyline).isClosed = false ∧
    ((false : Bool) = false →
      ([(⟨0, 0, 0⟩ : Vertex), ⟨1, 1, 5⟩] : List Vertex) ≠ [] →
      ([(⟨0, 0, 0⟩ : Vertex), ⟨1, 1, 5⟩] : List Vertex).getLast? =
        some (([(⟨0, 0, 0⟩ : Vertex), ⟨1, 1, 5⟩]).getLastD default)) := by
  have h := (claim_C7_linearize_contract segMathTest
    ⟨[⟨0, 0, 0⟩, ⟨1, 1, 5⟩], false⟩ 1).1
    ⟨[⟨0, 0, 0⟩, ⟨1, 1, 5⟩], false⟩ (by decide)
  exact h

/-! ## Closest point (C8) -/

theorem listFirstMin_cons_none (x : ℚ) (xs : List ℚ)
    (hxs : listFirstMin xs = none) :
    listFirstMin (x :: xs) = some (0, x) := by
  simp [listFirstMin, hxs]

theorem listFirstMin_cons_some (x : ℚ) (xs : List ℚ) (j : ℕ) (m : ℚ)
    (hxs : listFirstMin xs = some (j, m)) :
    listFirstMin (x :: xs) =
      if m < x then some (j + 1, m) else some (0, x) := by
  simp [listFirstMin, hxs]

theorem listFirstMin_eq_none {l : List ℚ} :
    listFirstMin l = none ↔ l = [] := by
  cases l with
  | nil => simp [listFirstMin]
  | cons x xs =>
    constructor
    · intro h
      cases hxs : listFirstMin xs with
      | none =>
        rw [listFirstMin_cons_none x xs hxs] at h
        cases h
      | some jm =>
        obtain ⟨j, m⟩ := jm
        rw [listFirstMin_cons_some x xs j m hxs] at h
        by_cases hm : m < x
        · rw [if_pos hm] at h; cases h
        · rw [if_neg hm] at h; cases h
    · intro h; cases h

/-- The first minimum of a list of rationals: it is in bounds, attains the
value at its index, is a lower bound of the whole list, and is strictly
below every earlier element. -/
theorem listFirstMin_spec :
    ∀ (l : List ℚ) (k : ℕ) (m : ℚ), listFirstMin l = some (k, m) →
      k < l.length ∧ l.getD k 0 = m ∧
        (∀ j, j < l.length → m ≤ l.getD j 0) ∧
        (∀ j, j < k → m < l.getD j 0) := by
  intro l
  induction l with
  | nil => intro k m h; cases h
  | cons x xs ih =>
    intro k m h
    cases hxs : listFirstMin xs with
    | none =>
      rw [listFirstMin_cons_none x xs hxs] at h
      obtain ⟨hk, hm⟩ : k = 0 ∧ x = m := by
        have := Option.some_injective _ h
        exact ⟨congrArg Prod.fst this |>.symm, congrArg Prod.snd this⟩
      subst hk
      have hxs' : xs = [] := listFirstMin_eq_none.mp hxs
      subst hxs'
      refine ⟨by simp, by simpa using hm, ?_, fun j hj => absurd hj (by omega)⟩
      intro j hj
      simp only [List.length_cons, List.length_nil] at hj
      have hj0 : j = 0 := by omega
      subst hj0
      rw [List.getD_cons_zero, hm]
    | some jm =>
      obtain ⟨j, m'⟩ := jm
      rw [listFirstMin_cons_some x xs j m' hxs] at h
      obtain ⟨hjlt, hjval, hjall, hjfirst⟩ := ih j m' hxs
      by_cases hm : m' < x
      · rw [if_pos hm] at h
        obtain ⟨hk, hmm⟩ : k = j + 1 ∧ m' = m := by
          have := Option.some_injective _ h
          exact ⟨congrArg Prod.fst this |>.symm, congrArg Prod.snd this⟩
        subst hk
        subst hmm
        refine ⟨by simp; omega, by simpa using hjval, ?_, ?_⟩
        · intro t ht
          cases t with
          | zero => simpa using le_of_lt hm
          | succ t' =>
            simp only [List.getD_cons_succ]
            exact hjall t' (by simpa using ht)
        · intro t ht
          cases t with
          | zero => simpa using hm
          | succ t' =>
            simp only [List.getD_cons_succ]
            exact hjfirst t' (by omega)
      · rw [if_neg hm] at h
        obtain ⟨hk, hmm⟩ : k = 0 ∧ x = m := by
          have := Option.some_injective _ h
          exact ⟨congrArg Prod.fst this |>.symm, congrArg Prod.snd this⟩
        subst hk
        refine ⟨by simp, by simpa using hmm, ?_, fun t ht => absurd ht (by omega)⟩
        intro t ht
        cases t with
        | zero => simp [hmm]
        | succ t' =>
          simp only [List.getD_cons_succ]
          have hxle : x ≤ m' := le_of_not_lt hm
          exact hmm ▸ le_trans hxle (hjall t' (by simpa using ht))

/-- The update step of the `closest_point` loop, written as an `if`. -/
theorem closestPointStep_eq (scp : Vertex → Vertex → Vec2 → Vec2)
    (p : Polyline) (pt : Vec2) (r0 : ClosestPointResult) (d0 : ℚ)
    (ij : ℕ × ℕ) :
    closestPointStep scp p pt (r0, d0) ij =
      if segDistSq scp p pt ij < d0 then
        (⟨ij.1,
          scp (p.vertexData.getD ij.1 default)
            (p.vertexData.getD ij.2 default) pt,
          r0.distance⟩,
         segDistSq scp p pt ij)
      else (r0, d0) := rfl

/-- Characterization of the `closest_point` fold: starting from any
accumulator, the fold returns the payload of the first index attaining the
minimum squared distance when that minimum strictly beats the accumulator,
and the accumulator unchanged otherwise. -/
theorem closestPoint_fold_char (scp : Vertex → Vertex → Vec2 → Vec2)
    (p : Polyline) (pt : Vec2) :
    ∀ (l : List (ℕ × ℕ)) (r0 : ClosestPointResult) (d0 : ℚ) (k : ℕ) (m : ℚ),
      listFirstMin (l.map (segDistSq scp p pt)) = some (k, m) →
      l.foldl (closestPointStep scp p pt) (r0, d0) =
        if m < d0 then
          (⟨(l.getD k (0, 0)).1,
            scp (p.vertexData.getD (l.getD k (0, 0)).1 default)
              (p.vertexData.getD (l.getD k (0, 0)).2 default) pt,
            r0.distance⟩, m)
        else (r0, d0) := by
  intro l
  induction l with
  | nil => intro r0 d0 k m h; cases h
  | cons ij rest ih =>
    intro r0 d0 k m h
    rw [List.map_cons] at h
    rw [List.foldl_cons]
    cases hrest : listFirstMin (rest.map (segDistSq scp p pt)) with
    | none =>
      have hrest' : rest = [] := by
        have := listFirstMin_eq_none.mp hrest
        exact List.map_eq_nil_iff.mp this
      subst hrest'
      rw [listFirstMin_cons_none _ _ hrest] at h
      have hkm := Option.some_injective _ h
      have hk : k = 0 := (congrArg Prod.fst hkm).symm
      have hm : m = segDistSq scp p pt ij := (congrArg Prod.snd hkm).symm
      subst hk
      subst hm
      rw [List.foldl_nil, closestPointStep_eq]
      rfl
    | some jm =>
      obtain ⟨j, m'⟩ := jm
      rw [listFirstMin_cons_some _ _ j m' hrest] at h
      by_cases hmx : m' < segDistSq scp p pt ij
      · rw [if_pos hmx] at h
        have hkm := Option.some_injective _ h
        have hk : k = j + 1 := (congrArg Prod.fst hkm).symm
        have hm : m = m' := (congrArg Prod.snd hkm).symm
        subst hk
        subst hm
        rw [closestPointStep_eq]
        by_cases hd : segDistSq scp p pt ij < d0
        · rw [if_pos hd]
          rw [ih _ _ j m hrest]
          rw [if_pos hmx, if_pos (lt_trans hmx hd)]
          rfl
        · rw [if_neg hd]
          rw [ih _ _ j m hrest]
          by_cases hmd : m < d0
          · rw [if_pos hmd, if_pos hmd]
            rfl
          · rw [if_neg hmd, if_neg hmd]
      · rw [if_neg hmx] at h
        have hkm := Option.some_injective _ h
        have hk : k = 0 := (congrArg Prod.fst hkm).symm
        have hm : m = segDistSq scp p pt ij := (congrArg Prod.snd hkm).symm
        subst hk
        subst hm
        rw [closestPointStep_eq]
        by_cases hd : segDistSq scp p pt ij < d0
        · rw [if_pos hd]
          rw [ih _ _ j m' hrest]
          rw [if_neg hmx, if_pos hd]
          rfl
        · rw [if_neg hd]
          rw [ih _ _ j m' hrest]
          have hnm : ¬m' < d0 := by
            have h1 : d0 ≤ segDistSq scp p pt ij := le_of_not_lt hd
            have h2 : segDistSq scp p pt ij ≤ m' := le_of_not_lt hmx
            exact not_lt.mpr (le_trans h1 h2)
          rw [if_neg hnm, if_neg hd]

/-- C8: `closest_point` returns no result exactly when the polyline is
empty; for a single vertex it returns segment index 0, that vertex's
position and the (square-rooted) distance to it; for two or more vertexes
(all per-segment squared distances being finitely below the `f64::MAX`
sentinel `M`) it returns the per-segment closest point of the segment with
the minimum squared distance, the earliest segment in traversal order
winning ties. Stated for every square-root function `sq` and per-segment
closest-point primitive `scp` standing for the external core math. -/
theorem claim_C8_closest_point (M : ℚ) (sq : ℚ → ℚ)
    (scp : Vertex → Vertex → Vec2 → Vec2) (p : Polyline) (pt : Vec2) :
    (p.vertexData = [] → p.closestPoint M sq scp pt = none) ∧
    (p.closestPoint M sq scp pt = none → p.vertexData = []) ∧
    (∀ v0, p.vertexData = [v0] →
      p.closestPoint M sq scp pt =
        some ⟨0, v0.pos, sq ((v0.pos.sub pt).lengthSq)⟩) ∧
    (2 ≤ p.vertexData.length →
      (∀ d ∈ (segIndexes p.vertexData.length p.isClosed).map
        (segDistSq scp p pt), d < M) →
      ∃ k m,
        k < ((segIndexes p.vertexData.length p.isClosed).map
          (segDistSq scp p pt)).length ∧
        ((segIndexes p.vertexData.length p.isClosed).map
          (segDistSq scp p pt)).getD k 0 = m ∧
        (∀ j, j < ((segIndexes p.vertexData.length p.isClosed).map
            (segDistSq scp p pt)).length →
          m ≤ ((segIndexes p.vertexData.length p.isClosed).map
            (segDistSq scp p pt)).getD j 0) ∧
        (∀ j, j < k →
          m < ((segIndexes p.vertexData.length p.isClosed).map
            (segDistSq scp p pt)).getD j 0) ∧
        p.closestPoint M sq scp pt =
          some ⟨((segIndexes p.vertexData.length p.isClosed).getD k (0, 0)).1,
            scp (p.vertexData.getD
                ((segIndexes p.vertexData.length p.isClosed).getD
                  k (0, 0)).1 default)
              (p.vertexData.getD
                ((segIndexes p.vertexData.length p.isClosed).getD
                  k (0, 0)).2 default) pt,
            sq m⟩) := by
  refine ⟨?_, ?_, ?_, ?_⟩
  · intro h
    unfold Polyline.closestPoint
    split
    · rfl
    · next v0 rest heq =>
      rw [h] at heq
      cases heq
  · intro h
    unfold Polyline.closestPoint at h
    split at h
    · next heq => exact heq
    · next v0 rest heq =>
      by_cases hr : rest = []
      · rw [if_pos hr] at h
        cases h
      · rw [if_neg hr] at h
        cases h
  · intro v0 h
    unfold Polyline.closestPoint
    split
    · next heq =>
      rw [h] at heq
      cases heq
    · next w0 rest heq =>
      rw [h] at heq
      obtain ⟨hw, hrest⟩ : v0 = w0 ∧ [] = rest := by
        have h1 := congrArg (fun l => List.headD l v0) heq
        have h2 := congrArg List.tail heq
        simp only [List.headD_cons, List.tail_cons] at h1 h2
        exact ⟨h1, h2⟩
      subst hw
      rw [if_pos hrest.symm]
  · intro h2 hall
    have hlen : (segIndexes p.vertexData.length p.isClosed).length ≠ 0 := by
      rw [segIndexes_length, if_neg (by omega : ¬p.vertexData.length < 2)]
      cases p.isClosed
      · simp only [Bool.false_eq_true, if_false]
        omega
      · simp only [if_true]
        omega
    have hds : (segIndexes p.vertexData.length p.isClosed).map
        (segDistSq scp p pt) ≠ [] := by
      intro hnil
      exact hlen (by rw [← List.length_map _ (segDistSq scp p pt), hnil]; rfl)
    obtain ⟨⟨k, m⟩, hfm⟩ : ∃ km, listFirstMin
        ((segIndexes p.vertexData.length p.isClosed).map
          (segDistSq scp p pt)) = some km := by
      cases hf : listFirstMin ((segIndexes p.vertexData.length p.isClosed).map
        (segDistSq scp p pt)) with
      | none => exact absurd (listFirstMin_eq_none.mp hf) hds
      | some km => exact ⟨km, rfl⟩
    obtain ⟨hk, hval, hle, hfirst⟩ := listFirstMin_spec _ k m hfm
    have hmM : m < M := by
      refine hall m ?_
      rw [← hval]
      rw [List.getD_eq_getElem _ _ hk]
      exact List.getElem_mem _
    refine ⟨k, m, hk, hval, hle, hfirst, ?_⟩
    unfold Polyline.closestPoint
    split
    · next heq =>
      rw [heq] at h2
      simp at h2
    · next v0 rest heq =>
      have hr : rest ≠ [] := by
        intro hnil
        rw [heq, hnil] at h2
        simp at h2
      rw [if_neg hr]
      have hloop : closestPointLoop M scp p pt v0 =
          (⟨((segIndexes p.vertexData.length p.isClosed).getD k (0, 0)).1,
            scp (p.vertexData.getD
                ((segIndexes p.vertexData.length p.isClosed).getD k (0, 0)).1
                default)
              (p.vertexData.getD
                ((segIndexes p.vertexData.length p.isClosed).getD k (0, 0)).2
                default) pt,
            (⟨0, v0.pos, M⟩ : ClosestPointResult).distance⟩, m) := by
        unfold closestPointLoop
        rw [closestPoint_fold_char scp p pt _ _ _ k m hfm]
        rw [if_pos hmM]
      rw [hloop]

/-- Witness for C8 at a concrete 2-vertex open polyline with a concrete
closest-point primitive. -/
theorem claim_C8_closest_point_witness :
    ∃ k m,
      k < ((segIndexes
        (⟨[⟨0, 0, 0⟩, ⟨3, 0, 0⟩], false⟩ : Polyline).vertexData.length
        (⟨[⟨0, 0, 0⟩, ⟨3, 0, 0⟩], false⟩ : Polyline).isClosed).map
          (segDistSq (fun v1 _ _ => v1.pos)
            ⟨[⟨0, 0, 0⟩, ⟨3, 0, 0⟩], false⟩ ⟨1, 5⟩)).length ∧
      ((segIndexes
        (⟨[⟨0, 0, 0⟩, ⟨3, 0, 0⟩], false⟩ : Polyline).vertexData.length
        (⟨[⟨0, 0, 0⟩, ⟨3, 0, 0⟩], false⟩ : Polyline).isClosed).map
          (segDistSq (fun v1 _ _ => v1.pos)
            ⟨[⟨0, 0, 0⟩, ⟨3, 0, 0⟩], false⟩ ⟨1, 5⟩)).getD k 0 = m ∧
      (∀ j, j < ((segIndexes
          (⟨[⟨0, 0, 0⟩, ⟨3, 0, 0⟩], false⟩ : Polyline).vertexData.length
          (⟨[⟨0, 0, 0⟩, ⟨3, 0, 0⟩], false⟩ : Polyline).isClosed).map
            (segDistSq (fun v1 _ _ => v1.pos)
              ⟨[⟨0, 0, 0⟩, ⟨3, 0, 0⟩], false⟩ ⟨1, 5⟩)).length →
        m ≤ ((segIndexes
          (⟨[⟨0, 0, 0⟩, ⟨3, 0, 0⟩], false⟩ : Polyline).vertexData.length
          (⟨[⟨0, 0, 0⟩, ⟨3, 0, 0⟩], false⟩ : Polyline).isClosed).map
            (segDistSq (fun v1 _ _ => v1.pos)
              ⟨[⟨0, 0, 0⟩, ⟨3, 0, 0⟩], false⟩ ⟨1, 5⟩)).getD j 0) ∧
      (∀ j, j < k →
        m < ((segIndexes
          (⟨[⟨0, 0, 0⟩, ⟨3, 0, 0⟩], false⟩ : Polyline).vertexData.length
          (⟨[⟨0, 0, 0⟩, ⟨3, 0, 0⟩], false⟩ : Polyline).isClosed).map
            (segDistSq (fun v1 _ _ => v1.pos)
              ⟨[⟨0, 0, 0⟩, ⟨3, 0, 0⟩], false⟩ ⟨1, 5⟩)).getD j 0) ∧
      Polyline.closestPoint 1000 (fun x => x) (fun v1 _ _ => v1.pos)
          ⟨[⟨0, 0, 0⟩, ⟨3, 0, 0⟩], false⟩ ⟨1, 5⟩ =
        some ⟨((segIndexes
            (⟨[⟨0, 0, 0⟩, ⟨3, 0, 0⟩], false⟩ : Polyline).vertexData.length
            (⟨[⟨0, 0, 0⟩, ⟨3, 0, 0⟩], false⟩ : Polyline).isClosed).getD
              k (0, 0)).1,
          (fun v1 _ _ => v1.pos)
            ((⟨[⟨0, 0, 0⟩, ⟨3, 0, 0⟩], false⟩ :
              Polyline).vertexData.getD
                ((segIndexes
                  (⟨[⟨0, 0, 0⟩, ⟨3, 0, 0⟩], false⟩ :
                    Polyline).vertexData.length
                  (⟨[⟨0, 0, 0⟩, ⟨3, 0, 0⟩], false⟩ :
                    Polyline).isClosed).getD k (0, 0)).1 default)
            ((⟨[⟨0, 0, 0⟩, ⟨3, 0, 0⟩], false⟩ :
              Polyline).vertexData.getD
                ((segIndexes
                  (⟨[⟨0, 0, 0⟩, ⟨3, 0, 0⟩], false⟩ :
                    Polyline).vertexData.length
                  (⟨[⟨0, 0, 0⟩, ⟨3, 0, 0⟩], false⟩ :
                    Polyline).isClosed).getD k (0, 0)).2 default)
            (⟨1, 5⟩ : Vec2),
          (fun x => x) m⟩ :=
  (claim_C8_closest_point 1000 (fun x => x) (fun v1 _ _ => v1.pos)
    ⟨[⟨0, 0, 0⟩, ⟨3, 0, 0⟩], false⟩ ⟨1, 5⟩).2.2.2 (by decide)
    (by
      intro d hd
      have hd' : d ∈ (segIndexes 2 false).map
          (segDistSq (fun v1 _ _ => v1.pos)
            ⟨[⟨0, 0, 0⟩, ⟨3, 0, 0⟩], false⟩ ⟨1, 5⟩) := hd
      have h3 : segIndexes 2 false = [(0, 1)] := by decide
      rw [h3] at hd'
      simp only [List.map_cons, List.map_nil, List.mem_singleton] at hd'
      subst hd'
      norm_num [segDistSq, Vec2.sub, Vec2.lengthSq, Vertex.pos])

end CavalierContours
